import Mathlib

/-!
Verification of the scrape-and-fetch stage of `scripts/pull_hf_daily.py`.

The Python program retrieves a daily listing page, iterates its `article`
entries, fetches each entry's detail page, parses a title and an abstract,
extracts an arXiv identifier from the entry's link with the regular
expression `/papers/(\d+\.\d+)`, deduplicates by identifier, downloads the
PDFs on a bounded thread pool, prunes records whose download failed, and
serialises the surviving records to `data/{today}_papers.json`.

The embedding below models the network and filesystem as an explicit
`World` value: HTTP GET of the listing and of each detail page is a function
from the URL to the response, and per-link download success is a Boolean
oracle.  The completion order of the download futures is an explicit
parameter (a permutation of the task indices), so theorems quantify over
every completion order.  Crashes of the Python loop (attribute errors on a
missing anchor, href, title or abstract element) are modelled with
`Except`.
-/

namespace PullHf

/-- Text and structure of one `article` entry's first anchor, if present. -/
structure Anchor where
  href : Option String
  deriving Repr, DecidableEq

/-- One `article` entry of the listing page: its first anchor, if any. -/
structure Entry where
  anchor : Option Anchor
  deriving Repr, DecidableEq

/-- Response to a detail-page GET: HTTP status, and the text of the
uniquely-classed `h1` and `p` elements when they are present in the body. -/
structure DetailPage where
  status : Nat
  titleEl : Option String
  abstractEl : Option String
  deriving Repr, DecidableEq

/-- Response to the listing-page GET: HTTP status and the `article` list. -/
structure ListingPage where
  status : Nat
  entries : List Entry

/-- The external world: listing GET, detail GET, and download success as a
function of the document link. -/
structure World where
  listing : String → ListingPage
  page : String → DetailPage
  dl : String → Bool

def HF_BASE_URL : String := "https://huggingface.co"

def HF_PAPERS_URL : String := "https://huggingface.co/papers/date"

/-- One paper record, mirroring the dict built at lines 117-126 of the
script. -/
structure Paper where
  title : String
  arxiv_id : String
  arxiv_link : String
  hf_link : String
  pdf_path : String
  abstract : String
  deriving Repr, DecidableEq

/-- The characters of the literal path fragment the identifier regex
anchors on. -/
def papersPat : List Char := "/papers/".toList

/-- Attempt of the regex `/papers/(\d+\.\d+)` at one fixed start position:
the literal fragment, then a maximal nonempty digit run, a dot, and a
second maximal nonempty digit run; returns the captured group. -/
def matchAt (cs : List Char) : Option String :=
  if cs.take 8 = papersPat then
    let rest := cs.drop 8
    let d1 := rest.takeWhile Char.isDigit
    match rest.dropWhile Char.isDigit with
    | '.' :: r2 =>
      let d2 := r2.takeWhile Char.isDigit
      if d1 ≠ [] ∧ d2 ≠ [] then some (String.mk (d1 ++ '.' :: d2)) else none
    | _ => none
  else none

/-- Left-to-right scan of `re.search`: the match at the least start
position wins. -/
def reSearch : List Char → Option String
  | [] => none
  | c :: rest =>
    match matchAt (c :: rest) with
    | some s => some s
    | none => reSearch rest

/-- `re.search(r"/papers/(\d+\.\d+)", link)` followed by `.group(1)`,
as at lines 100-102 of the script. -/
def extractArxivId (link : String) : Option String :=
  reSearch link.toList

/-- State threaded through the harvesting loop: the records built so far,
the seen identifiers, and the trace of detail URLs requested so far. -/
structure HarvestState where
  papers : List Paper
  seen : List String
  fetched : List String
  deriving Repr, DecidableEq

def initState : HarvestState := ⟨[], [], []⟩

/-- Information available when the loop dies with an uncaught exception:
the detail URLs that had been requested up to the crash. -/
structure Crash where
  fetched : List String
  deriving Repr, DecidableEq

/-- The record built from a successfully parsed entry (lines 113-126). -/
def mkPaper (t ab link url id : String) : Paper :=
  { title := t.replace "\n " ""
    arxiv_id := id
    arxiv_link := "https://arxiv.org/pdf/" ++ id
    hf_link := url
    pdf_path := "temp_pdfs/" ++ id ++ ".pdf"
    abstract := ab }

/-- One iteration of the harvesting loop (lines 88-126): read the first
anchor's href (attribute error if absent), GET the detail page, skip on a
non-200 status, read the title and abstract elements (attribute error if
absent), extract the identifier (skip if none), and append the record
unless the identifier was already seen. -/
def harvestEntry (w : World) (e : Entry) (st : HarvestState) :
    Except Crash HarvestState :=
  match e.anchor with
  | none => .error ⟨st.fetched⟩
  | some a =>
    match a.href with
    | none => .error ⟨st.fetched⟩
    | some link =>
      let url := HF_BASE_URL ++ link
      let content := w.page url
      let st1 : HarvestState := ⟨st.papers, st.seen, st.fetched ++ [url]⟩
      if content.status ≠ 200 then .ok st1
      else
        match content.titleEl with
        | none => .error ⟨st1.fetched⟩
        | some t =>
          match content.abstractEl with
          | none => .error ⟨st1.fetched⟩
          | some ab =>
            match extractArxivId link with
            | none => .ok st1
            | some id =>
              if id ∈ st1.seen then .ok st1
              else
                .ok ⟨st1.papers ++ [mkPaper t ab link url id],
                     st1.seen ++ [id], st1.fetched⟩

/-- The harvesting loop over the listing's entries, in document order;
an uncaught exception aborts the remaining entries. -/
def harvestLoop (w : World) : List Entry → HarvestState →
    Except Crash HarvestState
  | [], st => .ok st
  | e :: rest, st =>
    match harvestEntry w e st with
    | .error c => .error c
    | .ok st2 => harvestLoop w rest st2

/-- The result a download task reports: `(arxiv_link, success)`, as
returned by `download_pdf` (lines 27-60). -/
def download_pdf (w : World) (arxiv_link : String) (save_path : String) :
    String × Bool :=
  (arxiv_link, w.dl arxiv_link)

/-- Handling of one completed future (lines 131-136): on success the
working list is untouched, on failure every record with the failed link is
removed. -/
def processResult (ps : List Paper) (r : String × Bool) : List Paper :=
  if r.2 then ps else ps.filter (fun p => p.arxiv_link != r.1)

/-- The futures submitted to the pool, in submission order (line 129). -/
def futuresOf (w : World) (papers : List Paper) : List (String × Bool) :=
  papers.map (fun p => download_pdf w p.arxiv_link p.pdf_path)

/-- Observation of the future with index `i` in the `as_completed` loop:
a future that exists is waited on and its result processed. -/
def dlStep (futures : List (String × Bool)) (ps : List Paper) (i : Nat) :
    List Paper :=
  match futures[i]? with
  | some r => processResult ps r
  | none => ps

/-- The download stage (lines 128-136): results are observed in the given
completion `order` over the future indices, and failures prune the
working list. -/
def downloadAll (w : World) (papers : List Paper) (order : List Nat) :
    List Paper :=
  order.foldl (dlStep (futuresOf w papers)) papers

/-- Observable outcome of one run of `pull_hf_daily`. -/
structure RunResult where
  detailFetched : List String
  downloads : List String
  written : Option (String × List Paper)
  crashed : Bool
  deriving Repr, DecidableEq

/-- The whole of `pull_hf_daily(date)` (lines 63-147): GET the listing for
the requested date, return early with nothing written on a non-200 status,
harvest the entries, download on the pool in the given completion order,
and write the survivors to `data/{currentDate}_papers.json` where
`currentDate` models `datetime.now()` at line 138. -/
def pull_hf_daily (w : World) (reqDate currentDate : String)
    (order : List Nat) : RunResult :=
  let hf_papers_url := HF_PAPERS_URL ++ "/" ++ reqDate
  let listing := w.listing hf_papers_url
  if listing.status ≠ 200 then
    { detailFetched := [], downloads := [], written := none, crashed := false }
  else
    match harvestLoop w listing.entries initState with
    | .error c =>
      { detailFetched := c.fetched, downloads := [], written := none,
        crashed := true }
    | .ok st =>
      let papers := downloadAll w st.papers order
      let data_file_path := "data/" ++ currentDate ++ "_papers.json"
      { detailFetched := st.fetched
        downloads := st.papers.map (fun p => p.arxiv_link)
        written := some (data_file_path, papers)
        crashed := false }

/-! ### Basic lemmas about the harvesting loop -/

theorem harvestLoop_append (w : World) (l1 l2 : List Entry) :
    ∀ st, harvestLoop w (l1 ++ l2) st =
      (harvestLoop w l1 st).bind (fun st2 => harvestLoop w l2 st2) := by
  induction l1 with
  | nil => intro st; rfl
  | cons e rest ih =>
    intro st
    simp only [List.cons_append, harvestLoop]
    cases hE : harvestEntry w e st with
    | error c => rfl
    | ok st2 => exact ih st2

/-! ### Concrete worlds used as witnesses and counterexamples -/

/-- A world whose listing is available but empty. -/
def wEmpty : World :=
  { listing := fun _ => ⟨200, []⟩
    page := fun _ => ⟨404, none, none⟩
    dl := fun _ => false }

/-- A world whose listing endpoint answers HTTP 500. -/
def w500 : World :=
  { listing := fun _ => ⟨500, [⟨some ⟨some "/papers/1.2"⟩⟩]⟩
    page := fun _ => ⟨200, some "t", some "a"⟩
    dl := fun _ => true }

/-! ### Claim C9 -/

/-- Claim C9: whenever the run persists a file, the file is named with the
current date at run time (`datetime.now()` at line 138), never with the
requested date argument. -/
theorem c9_output_named_by_current_date (w : World) (reqDate currentDate : String)
    (order : List Nat) (p : String) (ps : List Paper)
    (h : (pull_hf_daily w reqDate currentDate order).written = some (p, ps)) :
    p = "data/" ++ currentDate ++ "_papers.json" := by
  unfold pull_hf_daily at h
  by_cases hs : (w.listing (HF_PAPERS_URL ++ "/" ++ reqDate)).status ≠ 200
  · rw [if_pos hs] at h
    exact absurd h (by simp)
  · rw [if_neg hs] at h
    cases hE : harvestLoop w (w.listing (HF_PAPERS_URL ++ "/" ++ reqDate)).entries initState with
    | error c => rw [hE] at h; exact absurd h (by simp)
    | ok st =>
      rw [hE] at h
      simp only [Option.some.injEq, Prod.mk.injEq] at h
      exact h.1.symm

/-- Witness for C9: a run requested for 2024-01-01 but executed on
2024-01-05 writes `data/2024-01-05_papers.json`, which is not the
requested-date name. -/
theorem c9_witness :
    "data/2024-01-05_papers.json" = "data/" ++ "2024-01-05" ++ "_papers.json" ∧
      "data/2024-01-05_papers.json" ≠ "data/" ++ "2024-01-01" ++ "_papers.json" :=
  ⟨c9_output_named_by_current_date wEmpty "2024-01-01" "2024-01-05" []
      "data/2024-01-05_papers.json" [] (by decide), by decide⟩

/-! ### Claim C3 -/

/-- Counterexample to claim C3 as stated: with the listing endpoint
answering HTTP 500, the run persists nothing at all, whereas the claim
asserts that the dated output file is written containing an empty list. -/
theorem c3_counterexample :
    (pull_hf_daily w500 "2024-01-01" "2024-01-05" []).written = none := by decide

/-- Claim C3 as amended: if the listing request returns a non-success
status, the run terminates with an empty result, no detail fetches or
downloads are attempted, and no output file is written (rather than an
output file containing an empty list). -/
theorem c3_amended_listing_failure (w : World) (reqDate currentDate : String)
    (order : List Nat)
    (h : (w.listing (HF_PAPERS_URL ++ "/" ++ reqDate)).status ≠ 200) :
    pull_hf_daily w reqDate currentDate order =
      { detailFetched := [], downloads := [], written := none, crashed := false } := by
  unfold pull_hf_daily
  rw [if_pos h]

/-- Witness for the amended C3: the HTTP-500 world yields the empty run
result. -/
theorem c3_amended_witness :
    pull_hf_daily w500 "2024-01-01" "2024-01-05" [] =
      { detailFetched := [], downloads := [], written := none, crashed := false } :=
  c3_amended_listing_failure w500 "2024-01-01" "2024-01-05" [] (by decide)

/-! ### Evaluation lemmas for one loop iteration -/

theorem harvestEntry_error_anchor (w : World) (e : Entry) (st : HarvestState)
    (h : e.anchor = none ∨ e.anchor = some ⟨none⟩) :
    harvestEntry w e st = .error ⟨st.fetched⟩ := by
  rcases h with h | h <;> simp [harvestEntry, h]

theorem harvestEntry_error_missing (w : World) (e : Entry) (st : HarvestState)
    (a : Anchor) (link : String) (ha : e.anchor = some a) (hh : a.href = some link)
    (hstat : (w.page (HF_BASE_URL ++ link)).status = 200)
    (hmiss : (w.page (HF_BASE_URL ++ link)).titleEl = none ∨
             (w.page (HF_BASE_URL ++ link)).abstractEl = none) :
    harvestEntry w e st = .error ⟨st.fetched ++ [HF_BASE_URL ++ link]⟩ := by
  unfold harvestEntry
  simp only [ha, hh]
  cases hT : (w.page (HF_BASE_URL ++ link)).titleEl with
  | none => simp [hstat, hT]
  | some t =>
    rcases hmiss with h1 | h2
    · rw [hT] at h1; exact absurd h1 (by simp)
    · simp [hstat, hT, h2]

theorem harvestEntry_dup (w : World) (e : Entry) (st : HarvestState)
    (a : Anchor) (link t ab id : String)
    (ha : e.anchor = some a) (hh : a.href = some link)
    (hstat : (w.page (HF_BASE_URL ++ link)).status = 200)
    (hT : (w.page (HF_BASE_URL ++ link)).titleEl = some t)
    (hA : (w.page (HF_BASE_URL ++ link)).abstractEl = some ab)
    (hid : extractArxivId link = some id) (hdup : id ∈ st.seen) :
    harvestEntry w e st = .ok ⟨st.papers, st.seen, st.fetched ++ [HF_BASE_URL ++ link]⟩ := by
  unfold harvestEntry
  simp only [ha, hh]
  simp [hstat, hT, hA, hid, hdup]

theorem harvestLoop_error_at (w : World) (pre post : List Entry) (e : Entry)
    (st : HarvestState) (c : Crash)
    (hpre : harvestLoop w pre initState = .ok st)
    (he : harvestEntry w e st = .error c) :
    harvestLoop w (pre ++ e :: post) initState = .error c := by
  rw [harvestLoop_append, hpre]
  show harvestLoop w (e :: post) st = .error c
  simp [harvestLoop, he]

theorem pull_eq_of_loop_error (w : World) (reqDate currentDate : String)
    (order : List Nat) (c : Crash)
    (hls : (w.listing (HF_PAPERS_URL ++ "/" ++ reqDate)).status = 200)
    (hloop : harvestLoop w (w.listing (HF_PAPERS_URL ++ "/" ++ reqDate)).entries
        initState = .error c) :
    pull_hf_daily w reqDate currentDate order =
      { detailFetched := c.fetched, downloads := [], written := none,
        crashed := true } := by
  unfold pull_hf_daily
  rw [if_neg (by simp [hls]), hloop]

/-! ### Claim C2 -/

/-- A world whose first detail page is retrieved with HTTP 200 but lacks
the required title heading element; a second healthy entry follows. -/
def wNoTitle : World :=
  { listing := fun _ => ⟨200, [⟨some ⟨some "/papers/1.2"⟩⟩,
                              ⟨some ⟨some "/papers/3.4"⟩⟩]⟩
    page := fun u =>
      if u = "https://huggingface.co/papers/1.2" then ⟨200, none, some "a"⟩
      else ⟨200, some "t", some "a"⟩
    dl := fun _ => true }

/-- Counterexample to claim C2 as stated: an entry whose detail page is
retrieved successfully but lacks the title element is not skipped — the
run crashes, the following entry is never fetched, and nothing is
written. -/
theorem c2_counterexample :
    (pull_hf_daily wNoTitle "2024-01-01" "2024-01-05" []).crashed = true ∧
      (pull_hf_daily wNoTitle "2024-01-01" "2024-01-05" []).detailFetched =
        ["https://huggingface.co/papers/1.2"] ∧
      (pull_hf_daily wNoTitle "2024-01-01" "2024-01-05" []).written = none := by
  refine ⟨by decide, by decide, by decide⟩

/-- Claim C2 as amended: when a detail page is retrieved successfully but
lacks the required title heading element or the required abstract
paragraph element, the harvester does not skip the entry — an uncaught
exception escapes the harvesting stage, no later entry is processed, no
download is attempted, and no output file is written. -/
theorem c2_amended_missing_element_aborts (w : World)
    (reqDate currentDate : String) (order : List Nat)
    (pre post : List Entry) (e : Entry) (st : HarvestState)
    (a : Anchor) (link : String)
    (hls : (w.listing (HF_PAPERS_URL ++ "/" ++ reqDate)).status = 200)
    (hent : (w.listing (HF_PAPERS_URL ++ "/" ++ reqDate)).entries = pre ++ e :: post)
    (hpre : harvestLoop w pre initState = .ok st)
    (ha : e.anchor = some a) (hh : a.href = some link)
    (hstat : (w.page (HF_BASE_URL ++ link)).status = 200)
    (hmiss : (w.page (HF_BASE_URL ++ link)).titleEl = none ∨
             (w.page (HF_BASE_URL ++ link)).abstractEl = none) :
    pull_hf_daily w reqDate currentDate order =
      { detailFetched := st.fetched ++ [HF_BASE_URL ++ link], downloads := [],
        written := none, crashed := true } :=
  pull_eq_of_loop_error w reqDate currentDate order _ hls
    (hent ▸ harvestLoop_error_at w pre post e st _ hpre
      (harvestEntry_error_missing w e st a link ha hh hstat hmiss))

/-- Witness for the amended C2, on the concrete missing-title world. -/
theorem c2_amended_witness :
    pull_hf_daily wNoTitle "2024-01-01" "2024-01-05" [] =
      { detailFetched := [] ++ ["https://huggingface.co" ++ "/papers/1.2"],
        downloads := [], written := none, crashed := true } :=
  c2_amended_missing_element_aborts wNoTitle "2024-01-01" "2024-01-05" []
    [] [⟨some ⟨some "/papers/3.4"⟩⟩] ⟨some ⟨some "/papers/1.2"⟩⟩ initState
    ⟨some "/papers/1.2"⟩ "/papers/1.2"
    (by decide) rfl rfl rfl rfl (by decide) (Or.inl (by decide))

/-! ### Claim C10 -/

/-- A world whose listing has a healthy entry, then an entry with no
anchor at all, then another healthy entry. -/
def wNoAnchor : World :=
  { listing := fun _ => ⟨200, [⟨some ⟨some "/papers/1.2"⟩⟩, ⟨none⟩,
                              ⟨some ⟨some "/papers/3.4"⟩⟩]⟩
    page := fun _ => ⟨200, some "t", some "a"⟩
    dl := fun _ => true }

/-- Claim C10: an article entry with no anchor element, or whose first
anchor has no href attribute, aborts the run with an uncaught exception at
that entry: no later entry is processed, no download happens, and no
output file is written. -/
theorem c10_missing_anchor_aborts (w : World)
    (reqDate currentDate : String) (order : List Nat)
    (pre post : List Entry) (e : Entry) (st : HarvestState)
    (hls : (w.listing (HF_PAPERS_URL ++ "/" ++ reqDate)).status = 200)
    (hent : (w.listing (HF_PAPERS_URL ++ "/" ++ reqDate)).entries = pre ++ e :: post)
    (hpre : harvestLoop w pre initState = .ok st)
    (ha : e.anchor = none ∨ e.anchor = some ⟨none⟩) :
    pull_hf_daily w reqDate currentDate order =
      { detailFetched := st.fetched, downloads := [], written := none,
        crashed := true } :=
  pull_eq_of_loop_error w reqDate currentDate order _ hls
    (hent ▸ harvestLoop_error_at w pre post e st _ hpre
      (harvestEntry_error_anchor w e st ha))

/-- Witness for C10: the anchorless second entry crashes the run after the
first entry's fetch; the third entry is never fetched and nothing is
written, even though the first entry had been harvested. -/
theorem c10_witness :
    pull_hf_daily wNoAnchor "2024-01-01" "2024-01-05" [0] =
      { detailFetched := ["https://huggingface.co/papers/1.2"],
        downloads := [], written := none, crashed := true } :=
  c10_missing_anchor_aborts wNoAnchor "2024-01-01" "2024-01-05" [0]
    [⟨some ⟨some "/papers/1.2"⟩⟩] [⟨some ⟨some "/papers/3.4"⟩⟩] ⟨none⟩
    ⟨[mkPaper "t" "a" "/papers/1.2" "https://huggingface.co/papers/1.2" "1.2"],
     ["1.2"], ["https://huggingface.co/papers/1.2"]⟩
    (by decide) rfl rfl (Or.inl rfl)

/-! ### Claim C4 -/

/-- A world whose listing repeats the same entry twice; both occurrences
have healthy detail pages. -/
def wDup : World :=
  { listing := fun _ => ⟨200, [⟨some ⟨some "/papers/1.2"⟩⟩,
                              ⟨some ⟨some "/papers/1.2"⟩⟩]⟩
    page := fun _ => ⟨200, some "t", some "a"⟩
    dl := fun _ => true }

/-- Counterexample to claim C4 as stated: the duplicate second entry does
trigger a detail-page fetch — the fetch trace contains the same detail URL
twice — because the identifier is only extracted and checked against the
seen set after the detail request. -/
theorem c4_counterexample :
    (pull_hf_daily wDup "2024-01-01" "2024-01-05" [0]).detailFetched.count
        "https://huggingface.co/papers/1.2" = 2 := by decide

/-- Claim C4 as amended: the harvester extracts the identifier and checks
the seen set only after fetching and parsing the entry's detail page; a
duplicate entry therefore does trigger a detail-page fetch, but it is
discarded before insertion — the record list and the seen set are
unchanged and the loop continues with the next entry. -/
theorem c4_amended_dedup_after_fetch (w : World) (e : Entry)
    (rest : List Entry) (st : HarvestState) (a : Anchor)
    (link t ab id : String)
    (ha : e.anchor = some a) (hh : a.href = some link)
    (hstat : (w.page (HF_BASE_URL ++ link)).status = 200)
    (hT : (w.page (HF_BASE_URL ++ link)).titleEl = some t)
    (hA : (w.page (HF_BASE_URL ++ link)).abstractEl = some ab)
    (hid : extractArxivId link = some id) (hdup : id ∈ st.seen) :
    harvestLoop w (e :: rest) st =
      harvestLoop w rest ⟨st.papers, st.seen, st.fetched ++ [HF_BASE_URL ++ link]⟩ := by
  simp only [harvestLoop,
    harvestEntry_dup w e st a link t ab id ha hh hstat hT hA hid hdup]

/-- Witness for the amended C4: the duplicate occurrence of the entry is
fetched again, then dropped without changing the accumulated records. -/
theorem c4_witness :
    harvestLoop wDup [⟨some ⟨some "/papers/1.2"⟩⟩]
        ⟨[mkPaper "t" "a" "/papers/1.2" "https://huggingface.co/papers/1.2" "1.2"],
         ["1.2"], ["https://huggingface.co/papers/1.2"]⟩ =
      harvestLoop wDup []
        ⟨[mkPaper "t" "a" "/papers/1.2" "https://huggingface.co/papers/1.2" "1.2"],
         ["1.2"],
         ["https://huggingface.co/papers/1.2"] ++ ["https://huggingface.co" ++ "/papers/1.2"]⟩ :=
  c4_amended_dedup_after_fetch wDup ⟨some ⟨some "/papers/1.2"⟩⟩ []
    ⟨[mkPaper "t" "a" "/papers/1.2" "https://huggingface.co/papers/1.2" "1.2"],
     ["1.2"], ["https://huggingface.co/papers/1.2"]⟩
    ⟨some "/papers/1.2"⟩ "/papers/1.2" "t" "a" "1.2"
    rfl rfl rfl rfl rfl (by decide) (by decide)

/-! ### Claim C7 -/

/-- A batch of Key Extractor applications, one per link, in order. -/
def extractBatch (links : List String) : List (Option String) :=
  links.map extractArxivId

/-- Claim C7: the Key Extractor is deterministic and side-effect free —
in any batch of extractions, two applications to the same link (at any two
positions, however separated by extractions on other links) report the
same result. -/
theorem c7_extract_deterministic (links : List String) (i j : Nat) (l : String)
    (hi : links.get? i = some l) (hj : links.get? j = some l) :
    (extractBatch links).get? i = (extractBatch links).get? j := by
  rw [List.get?_eq_getElem?] at hi hj
  simp only [extractBatch, List.get?_eq_getElem?, List.getElem?_map, hi, hj]

/-- Witness for C7: positions 0 and 2 of a batch hold the same link and
report the same identifier. -/
theorem c7_witness :
    (extractBatch ["/papers/2401.00001", "/x", "/papers/2401.00001"]).get? 0 =
      (extractBatch ["/papers/2401.00001", "/x", "/papers/2401.00001"]).get? 2 :=
  c7_extract_deterministic ["/papers/2401.00001", "/x", "/papers/2401.00001"]
    0 2 "/papers/2401.00001" rfl rfl

/-! ### Claim C1 -/

/-- Bool predicate: record `p` survives the observation of the completed
future with index `i`. -/
def okAt (futures : List (String × Bool)) (p : Paper) (i : Nat) : Bool :=
  match futures[i]? with
  | some (l, false) => p.arxiv_link != l
  | _ => true

theorem processResult_eq_filter (ps : List Paper) (r : String × Bool) :
    processResult ps r =
      ps.filter (fun p => if r.2 then true else p.arxiv_link != r.1) := by
  unfold processResult
  cases hr : r.2 with
  | true => simp
  | false => simp

theorem downloadAll_eq_filter (futures : List (String × Bool)) :
    ∀ (order : List Nat) (ps : List Paper),
      order.foldl (dlStep futures) ps =
      ps.filter (fun p => order.all (okAt futures p)) := by
  intro order
  induction order with
  | nil => intro ps; simp
  | cons i rest ih =>
    intro ps
    simp only [List.foldl_cons, List.all_cons]
    cases hF : futures[i]? with
    | none =>
      have hstep : dlStep futures ps i = ps := by simp [dlStep, hF]
      rw [hstep, ih]
      refine (List.filter_congr ?_).symm
      intro p _
      have hok : okAt futures p i = true := by simp [okAt, hF]
      rw [hok, Bool.true_and]
    | some r =>
      have hstep : dlStep futures ps i = processResult ps r := by
        simp [dlStep, hF]
      rw [hstep, processResult_eq_filter, ih, List.filter_filter]
      refine (List.filter_congr ?_).symm
      intro p _
      rcases r with ⟨l, b⟩
      cases b with
      | true =>
        have hok : okAt futures p i = true := by simp [okAt, hF]
        rw [hok, Bool.true_and]
        simp
      | false =>
        have hok : okAt futures p i = (p.arxiv_link != l) := by
          simp [okAt, hF]
        rw [hok]
        simp [Bool.and_comm]

theorem futuresOf_getElem (w : World) (papers : List Paper) (i : Nat)
    (hi : i < papers.length) :
    (futuresOf w papers)[i]? =
      some (papers[i].arxiv_link, w.dl papers[i].arxiv_link) := by
  simp [futuresOf, List.getElem?_map, List.getElem?_eq_getElem hi, download_pdf]

theorem okAt_eq_of_perm (w : World) (papers : List Paper) (order : List Nat)
    (hperm : order.Perm (List.range papers.length)) (p : Paper)
    (hp : p ∈ papers) :
    order.all (okAt (futuresOf w papers) p) = w.dl p.arxiv_link := by
  cases hdl : w.dl p.arxiv_link with
  | true =>
    rw [List.all_eq_true]
    intro i hi
    have hilt : i < papers.length := by
      have := hperm.mem_iff.mp hi
      simpa [List.mem_range] using this
    have hF := futuresOf_getElem w papers i hilt
    cases hd : w.dl papers[i].arxiv_link with
    | true => simp [okAt, hF, hd]
    | false =>
      have hne : p.arxiv_link ≠ papers[i].arxiv_link := by
        intro hEq
        rw [hEq, hd] at hdl
        exact Bool.false_ne_true hdl
      simp [okAt, hF, hd, hne]
  | false =>
    obtain ⟨n, hn, hget⟩ := List.mem_iff_getElem.mp hp
    refine Bool.eq_false_iff.mpr ?_
    rw [ne_eq, List.all_eq_true]
    intro hall
    have hmem : n ∈ order :=
      hperm.mem_iff.mpr (List.mem_range.mpr hn)
    have h1 := hall n hmem
    have hF := futuresOf_getElem w papers n hn
    rw [hget] at hF
    simp [okAt, hF, hdl] at h1

/-- Claim C1: for every record sequence assembled by the harvesting stage
and every completion order of the per-record download tasks, the sequence
surviving the download stage is a subsequence of the input preserving
relative discovery order, and it contains exactly those records whose
download task reported success. -/
theorem c1_download_filter (w : World) (entries : List Entry)
    (st : HarvestState) (order : List Nat)
    (hharv : harvestLoop w entries initState = .ok st)
    (hperm : order.Perm (List.range st.papers.length)) :
    downloadAll w st.papers order =
      st.papers.filter (fun p => (download_pdf w p.arxiv_link p.pdf_path).2) ∧
    (downloadAll w st.papers order).Sublist st.papers := by
  have h1 : downloadAll w st.papers order =
      st.papers.filter (fun p => w.dl p.arxiv_link) := by
    rw [downloadAll, downloadAll_eq_filter]
    exact List.filter_congr
      (fun p hp => okAt_eq_of_perm w st.papers order hperm p hp)
  exact ⟨h1, h1 ▸ List.filter_sublist _⟩

/-- A world whose listing yields two records, of which only the first one
downloads successfully. -/
def wC1 : World :=
  { listing := fun _ => ⟨200, [⟨some ⟨some "/papers/1.2"⟩⟩,
                              ⟨some ⟨some "/papers/3.4"⟩⟩]⟩
    page := fun _ => ⟨200, some "t", some "a"⟩
    dl := fun l => l = "https://arxiv.org/pdf/1.2" }

/-- The harvest result in `wC1`. -/
def harvestedC1 : HarvestState :=
  ⟨[mkPaper "t" "a" "/papers/1.2" "https://huggingface.co/papers/1.2" "1.2",
    mkPaper "t" "a" "/papers/3.4" "https://huggingface.co/papers/3.4" "3.4"],
   ["1.2", "3.4"],
   ["https://huggingface.co/papers/1.2", "https://huggingface.co/papers/3.4"]⟩

/-- Witness for C1: with completion order reversed relative to submission
order, the survivors are exactly the successfully downloaded first record,
in discovery order. -/
theorem c1_witness :
    downloadAll wC1 harvestedC1.papers [1, 0] =
      [mkPaper "t" "a" "/papers/1.2" "https://huggingface.co/papers/1.2" "1.2"] ∧
    (downloadAll wC1 harvestedC1.papers [1, 0]).Sublist harvestedC1.papers := by
  have h := c1_download_filter wC1
    [⟨some ⟨some "/papers/1.2"⟩⟩, ⟨some ⟨some "/papers/3.4"⟩⟩]
    harvestedC1 [1, 0] rfl (by decide)
  exact ⟨by rw [h.1]; rfl, h.2⟩

/-! ### Claim C5 -/

/-- The record an entry yields when its processing reaches the insertion
point, ignoring deduplication: the stateless part of one loop iteration.
`none` exactly on the iteration's skip paths (non-200 detail status,
identifier not extractable); unspecified-as-`none` on its crash paths,
which cannot occur in a loop that returns successfully. -/
def recordOf (w : World) (e : Entry) : Option Paper :=
  match e.anchor with
  | none => none
  | some a =>
    match a.href with
    | none => none
    | some link =>
      let url := HF_BASE_URL ++ link
      let content := w.page url
      if content.status ≠ 200 then none
      else
        match content.titleEl with
        | none => none
        | some t =>
          match content.abstractEl with
          | none => none
          | some ab =>
            match extractArxivId link with
            | none => none
            | some id => some (mkPaper t ab link url id)

/-- First-occurrence-wins deduplication by identifier, keyed on an
accumulated seen list. -/
def dedupFirst : List Paper → List String → List Paper
  | [], _ => []
  | p :: rest, seen =>
    if p.arxiv_id ∈ seen then dedupFirst rest seen
    else p :: dedupFirst rest (seen ++ [p.arxiv_id])

theorem harvestLoop_papers_eq (w : World) :
    ∀ (entries : List Entry) (st st' : HarvestState),
      harvestLoop w entries st = .ok st' →
      st'.papers =
        st.papers ++ dedupFirst (entries.filterMap (recordOf w)) st.seen := by
  intro entries
  induction entries with
  | nil =>
    intro st st' h
    cases h
    simp [dedupFirst]
  | cons e rest ih =>
    intro st st' h
    simp only [harvestLoop] at h
    simp only [List.filterMap_cons]
    rcases hA : e.anchor with _ | a
    · rw [harvestEntry_error_anchor w e st (Or.inl hA)] at h
      exact absurd h (by simp)
    · rcases hh : a.href with _ | link
      · rw [harvestEntry_error_anchor w e st (Or.inr (by rw [hA, ← hh]))] at h
        exact absurd h (by simp)
      · by_cases hstat : (w.page (HF_BASE_URL ++ link)).status = 200
        · rcases hT : (w.page (HF_BASE_URL ++ link)).titleEl with _ | t
          · rw [harvestEntry_error_missing w e st a link hA hh hstat (Or.inl hT)] at h
            exact absurd h (by simp)
          · rcases hAb : (w.page (HF_BASE_URL ++ link)).abstractEl with _ | ab
            · rw [harvestEntry_error_missing w e st a link hA hh hstat
                (Or.inr hAb)] at h
              exact absurd h (by simp)
            · rcases hid : extractArxivId link with _ | id
              · have hstep : harvestEntry w e st =
                    .ok ⟨st.papers, st.seen, st.fetched ++ [HF_BASE_URL ++ link]⟩ := by
                  unfold harvestEntry
                  simp only [hA, hh]
                  simp [hstat, hT, hAb, hid]
                have hrec : recordOf w e = none := by
                  unfold recordOf
                  simp only [hA, hh]
                  simp [hstat, hT, hAb, hid]
                rw [hstep] at h
                rw [hrec]
                have h2 : harvestLoop w rest
                    ⟨st.papers, st.seen, st.fetched ++ [HF_BASE_URL ++ link]⟩ =
                      .ok st' := h
                exact ih ⟨st.papers, st.seen, st.fetched ++ [HF_BASE_URL ++ link]⟩ st' h2
              · by_cases hdup : id ∈ st.seen
                · have hstep := harvestEntry_dup w e st a link t ab id
                    hA hh hstat hT hAb hid hdup
                  have hrec : recordOf w e =
                      some (mkPaper t ab link (HF_BASE_URL ++ link) id) := by
                    unfold recordOf
                    simp only [hA, hh]
                    simp [hstat, hT, hAb, hid]
                  rw [hstep] at h
                  rw [hrec]
                  have hgoal := ih _ _ h
                  rw [hgoal]
                  have hif : dedupFirst
                      (mkPaper t ab link (HF_BASE_URL ++ link) id ::
                        rest.filterMap (recordOf w)) st.seen =
                      dedupFirst (rest.filterMap (recordOf w)) st.seen := by
                    rw [dedupFirst, if_pos (by simpa [mkPaper] using hdup)]
                  rw [hif]
                · have hstep : harvestEntry w e st =
                      .ok ⟨st.papers ++ [mkPaper t ab link (HF_BASE_URL ++ link) id],
                           st.seen ++ [id], st.fetched ++ [HF_BASE_URL ++ link]⟩ := by
                    unfold harvestEntry
                    simp only [hA, hh]
                    simp [hstat, hT, hAb, hid, hdup]
                  have hrec : recordOf w e =
                      some (mkPaper t ab link (HF_BASE_URL ++ link) id) := by
                    unfold recordOf
                    simp only [hA, hh]
                    simp [hstat, hT, hAb, hid]
                  rw [hstep] at h
                  rw [hrec]
                  have hgoal := ih _ _ h
                  rw [hgoal]
                  have hif : dedupFirst
                      (mkPaper t ab link (HF_BASE_URL ++ link) id ::
                        rest.filterMap (recordOf w)) st.seen =
                      mkPaper t ab link (HF_BASE_URL ++ link) id ::
                        dedupFirst (rest.filterMap (recordOf w))
                          (st.seen ++ [(mkPaper t ab link (HF_BASE_URL ++ link) id).arxiv_id]) := by
                    rw [dedupFirst, if_neg (by simpa [mkPaper] using hdup)]
                  rw [hif]
                  simp [List.append_assoc, mkPaper]
        · have hstep : harvestEntry w e st =
              .ok ⟨st.papers, st.seen, st.fetched ++ [HF_BASE_URL ++ link]⟩ := by
            unfold harvestEntry
            simp only [hA, hh]
            simp [hstat]
          have hrec : recordOf w e = none := by
            unfold recordOf
            simp only [hA, hh]
            simp [hstat]
          rw [hstep] at h
          rw [hrec]
          have h2 : harvestLoop w rest
              ⟨st.papers, st.seen, st.fetched ++ [HF_BASE_URL ++ link]⟩ =
                .ok st' := h
          exact ih ⟨st.papers, st.seen, st.fetched ++ [HF_BASE_URL ++ link]⟩ st' h2

theorem dedupFirst_nodup :
    ∀ (l : List Paper) (seen : List String),
      ((dedupFirst l seen).map (fun p => p.arxiv_id)).Nodup ∧
      ∀ p ∈ dedupFirst l seen, p.arxiv_id ∉ seen := by
  intro l
  induction l with
  | nil => intro seen; simp [dedupFirst]
  | cons p rest ih =>
    intro seen
    by_cases hmem : p.arxiv_id ∈ seen
    · simpa [dedupFirst, hmem] using ih seen
    · have ih2 := ih (seen ++ [p.arxiv_id])
      simp only [dedupFirst, if_neg hmem]
      refine ⟨?_, ?_⟩
      · rw [List.map_cons, List.nodup_cons]
        refine ⟨?_, ih2.1⟩
        intro hcon
        obtain ⟨q, hq, hqid⟩ := List.mem_map.mp hcon
        exact (ih2.2 q hq) (by simp [hqid])
      · intro q hq
        rcases List.mem_cons.mp hq with hq | hq
        · rw [hq]; exact hmem
        · intro hcon
          exact (ih2.2 q hq) (by simp [hcon])

theorem dedupFirst_find? :
    ∀ (l : List Paper) (seen : List String) (id : String), id ∉ seen →
      (dedupFirst l seen).find? (fun p => p.arxiv_id == id) =
        l.find? (fun p => p.arxiv_id == id) := by
  intro l
  induction l with
  | nil => intro seen id _; rfl
  | cons p rest ih =>
    intro seen id hid
    by_cases hmem : p.arxiv_id ∈ seen
    · have hne : (p.arxiv_id == id) = false := by
        refine Bool.eq_false_iff.mpr ?_
        intro hcon
        exact hid ((beq_iff_eq.mp hcon) ▸ hmem)
      rw [dedupFirst, if_pos hmem, ih seen id hid]
      simp [List.find?_cons, hne]
    · rw [dedupFirst, if_neg hmem]
      cases hb : (p.arxiv_id == id) with
      | true => simp [List.find?_cons, hb]
      | false =>
        simp only [List.find?_cons, hb]
        refine ih _ id ?_
        intro hcon
        rcases List.mem_append.mp hcon with hcon | hcon
        · exact hid hcon
        · simp only [List.mem_singleton] at hcon
          exact absurd (beq_iff_eq.mpr hcon.symm) (by simp [hb])

/-- Claim C5: in the assembled record sequence, identifiers are pairwise
distinct, and for every identifier the surviving record is the first
record, in document order, among those the entries would yield — later
duplicates are discarded, not merged. -/
theorem c5_unique_identifiers_first_wins (w : World) (entries : List Entry)
    (st : HarvestState) (h : harvestLoop w entries initState = .ok st) :
    ((st.papers.map (fun p => p.arxiv_id)).Nodup) ∧
    (∀ id, st.papers.find? (fun p => p.arxiv_id == id) =
      (entries.filterMap (recordOf w)).find? (fun p => p.arxiv_id == id)) := by
  have hpap := harvestLoop_papers_eq w entries initState st h
  simp only [initState, List.nil_append] at hpap
  rw [hpap]
  exact ⟨(dedupFirst_nodup _ _).1,
    fun id => dedupFirst_find? _ _ id (by simp)⟩

/-- The harvest result in `wDup`: one record, from the first occurrence of
the duplicated entry. -/
def harvestedDup : HarvestState :=
  ⟨[mkPaper "t" "a" "/papers/1.2" "https://huggingface.co/papers/1.2" "1.2"],
   ["1.2"],
   ["https://huggingface.co/papers/1.2", "https://huggingface.co/papers/1.2"]⟩

/-- Witness for C5: a listing repeating the same entry yields exactly one
record for the identifier, the one from the first occurrence. -/
theorem c5_witness :
    ((harvestedDup.papers.map (fun p => p.arxiv_id)).Nodup) ∧
    harvestedDup.papers.find? (fun p => p.arxiv_id == "1.2") =
      ([⟨some ⟨some "/papers/1.2"⟩⟩,
        ⟨some ⟨some "/papers/1.2"⟩⟩].filterMap (recordOf wDup)).find?
        (fun p => p.arxiv_id == "1.2") := by
  have h := c5_unique_identifiers_first_wins wDup
    [⟨some ⟨some "/papers/1.2"⟩⟩, ⟨some ⟨some "/papers/1.2"⟩⟩]
    harvestedDup rfl
  exact ⟨h.1, h.2 "1.2"⟩

/-! ### Claim C8

The script drives the downloads through
`ThreadPoolExecutor(max_workers=10)` (line 128), submitting one future per
record in list order and collecting results with `as_completed`.  The pool
discipline itself is library behaviour, not code of this repository, so it
is modelled here from the spec as a transition system. -/

/-- Modelled from the spec: state of the bounded worker pool — the
not-yet-started futures in submission order, the in-flight tasks, and the
completed tasks in completion order (§5: fixed-size pool, FIFO
scheduling, results observed in completion order). -/
structure PoolState where
  pending : List Nat
  running : List Nat
  done : List Nat
  deriving Repr, DecidableEq

/-- Modelled from the spec: one scheduler transition of a pool with worker
limit `k` — either the first pending task starts because a worker is free,
or some in-flight task finishes and its result is reported. -/
inductive PoolStep (k : Nat) : PoolState → PoolState → Prop
  | start (t : Nat) (rest running done : List Nat) :
      running.length < k →
      PoolStep k ⟨t :: rest, running, done⟩ ⟨rest, running ++ [t], done⟩
  | finish (t : Nat) (pending r1 r2 done : List Nat) :
      PoolStep k ⟨pending, r1 ++ t :: r2, done⟩ ⟨pending, r1 ++ r2, done ++ [t]⟩

/-- Modelled from the spec: the pool state right after `n` tasks have been
submitted (line 129 submits one future per record, in list order). -/
def initPool (n : Nat) : PoolState := ⟨List.range n, [], []⟩

/-- Executions of the pool: `ReachN k s j s'` means `s'` is reachable from
`s` in exactly `j` scheduler transitions. -/
inductive ReachN (k : Nat) (s : PoolState) : Nat → PoolState → Prop
  | refl : ReachN k s 0 s
  | step {j : Nat} {t u : PoolState} :
      ReachN k s j t → PoolStep k t u → ReachN k s (j + 1) u

/-- A pool state with no enabled transition. -/
def PoolStuck (k : Nat) (s : PoolState) : Prop :=
  ∀ s', ¬ PoolStep k s s'

theorem poolStep_running_le (k : Nat) (s s' : PoolState)
    (hk : s.running.length ≤ k) (h : PoolStep k s s') :
    s'.running.length ≤ k := by
  cases h with
  | start t rest running done hlt => simpa using hlt
  | finish t pending r1 r2 done =>
    simp only [List.length_append] at hk ⊢
    simp only [List.length_cons] at hk
    omega

theorem poolStep_nonempty (k : Nat) (s s' : PoolState) (h : PoolStep k s s') :
    s.pending ≠ [] ∨ s.running ≠ [] := by
  cases h with
  | start t rest running done hlt => exact Or.inl (by simp)
  | finish t pending r1 r2 done => exact Or.inr (by simp)

/-- The combined invariant carried along every execution from the initial
pool: bounded in-flight count, the pending queue is a suffix of the
submission order (FIFO scheduling), the started tasks are exactly a prefix
of the submission order, and each transition costs exactly one unit of the
measure `2·|pending| + |running|`. -/
theorem poolReach_invariant (k n : Nat) :
    ∀ (j : Nat) (s : PoolState), ReachN k (initPool n) j s →
      s.running.length ≤ k ∧
      (∃ m, m ≤ n ∧ s.pending = (List.range n).drop m ∧
        (s.running ++ s.done).Perm ((List.range n).take m)) ∧
      j + (2 * s.pending.length + s.running.length) = 2 * n := by
  intro j s h
  induction h with
  | refl =>
    exact ⟨by simp [initPool], ⟨0, by simp [initPool]⟩, by simp [initPool]⟩
  | step hr hstep ih =>
    rename_i j1 t1 u1
    obtain ⟨ih1, ⟨m, hm, hpend, hperm⟩, ih3⟩ := ih
    refine ⟨poolStep_running_le k _ _ ih1 hstep, ?_, ?_⟩
    · cases hstep with
      | start t rest running done hlt =>
        dsimp only at hpend hperm ⊢
        refine ⟨m + 1, ?_, ?_, ?_⟩
        · by_contra hcon
          have hnil : (List.range n).drop m = [] :=
            List.drop_eq_nil_of_le (by simp; omega)
          rw [← hpend] at hnil
          exact absurd hnil (by simp)
        · have htl : ((List.range n).drop m).tail = (List.range n).drop (m + 1) :=
            List.tail_drop _ _
          rw [← htl, ← hpend]
          rfl
        · have hget : (List.range n)[m]? = some t := by
            have h0 : ((List.range n).drop m)[0]? = some t := by
              rw [← hpend]; simp
            rw [List.getElem?_drop] at h0
            simpa using h0
          have htake : (List.range n).take (m + 1) =
              (List.range n).take m ++ [t] := by
            rw [List.take_succ, hget]
            rfl
          rw [htake]
          have h1 : ((running ++ [t]) ++ done).Perm ((running ++ done) ++ [t]) := by
            rw [List.append_assoc, List.append_assoc]
            exact List.Perm.append_left running List.perm_append_comm
          exact h1.trans (List.Perm.append_right [t] hperm)
      | finish t pending r1 r2 done =>
        dsimp only at hpend hperm ⊢
        refine ⟨m, hm, hpend, ?_⟩
        have h1 : (done ++ [t]).Perm (t :: done) := by
          have hc := @List.perm_append_comm _ done [t]
          simpa using hc
        have h2 : ((r1 ++ r2) ++ (done ++ [t])).Perm ((r1 ++ r2) ++ (t :: done)) :=
          List.Perm.append_left _ h1
        have h3 : ((r1 ++ r2) ++ (t :: done)).Perm (t :: ((r1 ++ r2) ++ done)) :=
          List.perm_middle
        have h4 : (t :: ((r1 ++ r2) ++ done)).Perm ((r1 ++ t :: r2) ++ done) := by
          rw [List.append_assoc, List.append_assoc]
          exact List.Perm.symm List.perm_middle
        exact ((h2.trans h3).trans h4).trans hperm
    · cases hstep with
      | start t rest running done hlt =>
        have ih3b : j1 + (2 * (t :: rest).length + running.length) = 2 * n := ih3
        show (j1 + 1) + (2 * rest.length + (running ++ [t]).length) = 2 * n
        simp only [List.length_cons, List.length_append, List.length_singleton,
          List.length_nil] at ih3b ⊢
        omega
      | finish t pending r1 r2 done =>
        have ih3b : j1 + (2 * pending.length + (r1 ++ t :: r2).length) = 2 * n := ih3
        show (j1 + 1) + (2 * pending.length + (r1 ++ r2).length) = 2 * n
        simp only [List.length_append, List.length_cons] at ih3b ⊢
        omega

theorem poolStuck_empty (k : Nat) (s : PoolState) (hk : 0 < k)
    (hstuck : PoolStuck k s) : s.pending = [] ∧ s.running = [] := by
  rcases hr : s.running with _ | ⟨t, r⟩
  · rcases hp : s.pending with _ | ⟨q, rest⟩
    · exact ⟨rfl, rfl⟩
    · exfalso
      refine hstuck ⟨rest, s.running ++ [q], s.done⟩ ?_
      have hs : s = ⟨q :: rest, s.running, s.done⟩ := by
        cases s; simp_all
      rw [hs]
      exact PoolStep.start q rest s.running s.done (by rw [hr]; simpa using hk)
  · exfalso
    refine hstuck ⟨s.pending, r, s.done ++ [t]⟩ ?_
    have hs : s = ⟨s.pending, [] ++ t :: r, s.done⟩ := by
      cases s; simp_all
    rw [hs]
    exact PoolStep.finish t s.pending [] r s.done

/-- Claim C8: for every worker limit `k > 0` and every execution of `n`
submitted download tasks, (a) at most `k` tasks are ever simultaneously
in-flight, (b) tasks are started first-submitted-first-scheduled — the
waiting queue is always a suffix of the submission order and the started
tasks a prefix of it, and (c) when no transition remains enabled every
submitted task has completed and been reported exactly once, after exactly
`2·n` transitions. -/
theorem c8_pool_bounded_fifo_complete (k n j : Nat) (s : PoolState)
    (hk : 0 < k) (hreach : ReachN k (initPool n) j s) :
    s.running.length ≤ k ∧
    (∃ m, m ≤ n ∧ s.pending = (List.range n).drop m ∧
      (s.running ++ s.done).Perm ((List.range n).take m)) ∧
    (PoolStuck k s → s.done.Perm (List.range n) ∧ j = 2 * n) := by
  obtain ⟨h1, h2, h3⟩ := poolReach_invariant k n j s hreach
  refine ⟨h1, h2, ?_⟩
  intro hstuck
  obtain ⟨hp, hr⟩ := poolStuck_empty k s hk hstuck
  obtain ⟨m, hm, hpend, hperm⟩ := h2
  have hmn : n ≤ m := by
    rw [hp] at hpend
    have := List.drop_eq_nil_iff.mp hpend.symm
    simpa using this
  have htake : (List.range n).take m = List.range n :=
    List.take_of_length_le (by simpa using hmn)
  rw [hr, htake] at hperm
  simp only [List.nil_append] at hperm
  refine ⟨hperm, ?_⟩
  rw [hp, hr] at h3
  simp only [List.length_nil] at h3
  omega

/-- Witness for C8: a pool with limit 2 runs 3 tasks to completion in an
interleaved order, reaching a stuck state in exactly 6 transitions with
all three tasks reported. -/
theorem c8_witness :
    ([0, 1, 2] : List Nat).Perm (List.range 3) ∧ (6 : Nat) = 2 * 3 := by
  have r1 : ReachN 2 (initPool 3) 1 ⟨[1, 2], [0], []⟩ :=
    ReachN.step ReachN.refl (PoolStep.start 0 [1, 2] [] [] (by decide))
  have r2 : ReachN 2 (initPool 3) 2 ⟨[2], [0, 1], []⟩ :=
    ReachN.step r1 (PoolStep.start 1 [2] [0] [] (by decide))
  have r3 : ReachN 2 (initPool 3) 3 ⟨[2], [1], [0]⟩ :=
    ReachN.step r2 (PoolStep.finish 0 [2] [] [1] [])
  have r4 : ReachN 2 (initPool 3) 4 ⟨[], [1, 2], [0]⟩ :=
    ReachN.step r3 (PoolStep.start 2 [] [1] [0] (by decide))
  have r5 : ReachN 2 (initPool 3) 5 ⟨[], [2], [0, 1]⟩ :=
    ReachN.step r4 (PoolStep.finish 1 [] [] [2] [0])
  have r6 : ReachN 2 (initPool 3) 6 ⟨[], [], [0, 1, 2]⟩ :=
    ReachN.step r5 (PoolStep.finish 2 [] [] [] [0, 1])
  have hstuck : PoolStuck 2 ⟨[], [], [0, 1, 2]⟩ := by
    intro s' hstep
    rcases poolStep_nonempty 2 _ s' hstep with hne | hne <;> exact hne rfl
  exact (c8_pool_bounded_fifo_complete 2 3 6 ⟨[], [], [0, 1, 2]⟩ (by decide)
    r6).2.2 hstuck

/-! ### Claim C6 -/

/-- Declarative reading of one match of `/papers/(\d+\.\d+)` starting at
the head of `cs`: the literal fragment, a nonempty maximal digit run, a
dot, a second nonempty maximal digit run, and an arbitrary remainder;
`s` is the captured group.  (The first run's maximality is forced by the
dot that follows it; the second run's by the remainder's head not being a
digit.) -/
def MatchedGroup (cs : List Char) (s : String) : Prop :=
  ∃ d1 d2 rest,
    cs = papersPat ++ (d1 ++ '.' :: (d2 ++ rest)) ∧
    d1 ≠ [] ∧ d2 ≠ [] ∧
    (∀ c ∈ d1, c.isDigit = true) ∧ (∀ c ∈ d2, c.isDigit = true) ∧
    (∀ c, rest.head? = some c → c.isDigit = false) ∧
    s = String.mk (d1 ++ '.' :: d2)

theorem takeWhile_eq_nil_of_head (p : Char → Bool) (l : List Char)
    (h : ∀ c, l.head? = some c → p c = false) : l.takeWhile p = [] := by
  cases l with
  | nil => rfl
  | cons c r =>
    have hc := h c rfl
    simp [List.takeWhile_cons, hc]

theorem matchAt_eq_some_iff (cs : List Char) (s : String) :
    matchAt cs = some s ↔ MatchedGroup cs s := by
  constructor
  · intro h
    unfold matchAt at h
    dsimp only at h
    split at h
    case isFalse => exact absurd h (by simp)
    case isTrue hpre =>
      split at h
      case h_2 => exact absurd h (by simp)
      case h_1 r2 heq =>
        split at h
        case isFalse => exact absurd h (by simp)
        case isTrue hcond =>
          have e1 : cs = papersPat ++ cs.drop 8 := by
            rw [← hpre]
            exact (List.take_append_drop 8 cs).symm
          have e2 : cs.drop 8 =
              (cs.drop 8).takeWhile Char.isDigit ++ ('.' :: r2) := by
            rw [← heq]
            exact (List.takeWhile_append_dropWhile _ _).symm
          have e4 : ('.' : Char) :: r2 =
              '.' :: (r2.takeWhile Char.isDigit ++ r2.dropWhile Char.isDigit) := by
            rw [List.takeWhile_append_dropWhile]
          refine ⟨(cs.drop 8).takeWhile Char.isDigit, r2.takeWhile Char.isDigit,
            r2.dropWhile Char.isDigit, ?_, hcond.1, hcond.2, ?_, ?_, ?_, ?_⟩
          · refine e1.trans ?_
            refine (congrArg (fun z => papersPat ++ z) e2).trans ?_
            exact congrArg
              (fun z => papersPat ++ ((cs.drop 8).takeWhile Char.isDigit ++ z)) e4
          · intro c hc
            exact List.mem_takeWhile_imp hc
          · intro c hc
            exact List.mem_takeWhile_imp hc
          · intro c hc
            have hd := List.head?_dropWhile_not Char.isDigit r2
            rw [hc] at hd
            exact hd
          · injection h with h2
            exact h2.symm
  · rintro ⟨d1, d2, rest, hcs, hd1, hd2, hdig1, hdig2, hrest, hs⟩
    have hlen : papersPat.length = 8 := by decide
    have hpre : cs.take 8 = papersPat := by
      rw [hcs]
      exact List.take_left' hlen
    have hdrop : cs.drop 8 = d1 ++ '.' :: (d2 ++ rest) := by
      rw [hcs]
      exact List.drop_left' hlen
    have htw : (cs.drop 8).takeWhile Char.isDigit = d1 := by
      rw [hdrop, List.takeWhile_append_of_pos hdig1,
        List.takeWhile_cons_of_neg (by decide), List.append_nil]
    have hdw : (cs.drop 8).dropWhile Char.isDigit = '.' :: (d2 ++ rest) := by
      rw [hdrop, List.dropWhile_append_of_pos hdig1,
        List.dropWhile_cons_of_neg (by decide)]
    have htw2 : (d2 ++ rest).takeWhile Char.isDigit = d2 := by
      rw [List.takeWhile_append_of_pos hdig2,
        takeWhile_eq_nil_of_head Char.isDigit rest hrest, List.append_nil]
    unfold matchAt
    rw [if_pos hpre]
    simp only [hdw, htw, htw2]
    rw [if_pos ⟨hd1, hd2⟩, hs]

theorem matchAt_eq_none_iff (cs : List Char) :
    matchAt cs = none ↔ ∀ s, ¬ MatchedGroup cs s := by
  constructor
  · intro h s hMG
    have h2 := (matchAt_eq_some_iff cs s).mpr hMG
    rw [h] at h2
    exact absurd h2 (by simp)
  · intro h
    cases hM : matchAt cs with
    | none => rfl
    | some s => exact absurd ((matchAt_eq_some_iff cs s).mp hM) (h s)

theorem matchAt_nil : matchAt [] = none := by decide

theorem reSearch_eq_some_iff (cs : List Char) (s : String) :
    reSearch cs = some s ↔
      ∃ i, matchAt (cs.drop i) = some s ∧
        ∀ j, j < i → matchAt (cs.drop j) = none := by
  induction cs with
  | nil =>
    simp only [reSearch, List.drop_nil]
    constructor
    · intro h; exact absurd h (by simp)
    · rintro ⟨i, hi, hmin⟩
      rw [matchAt_nil] at hi
      exact absurd hi (by simp)
  | cons c cl ih =>
    simp only [reSearch]
    cases hM : matchAt (c :: cl) with
    | some s2 =>
      constructor
      · intro h
        refine ⟨0, ?_, ?_⟩
        · rw [List.drop_zero, hM]
          exact h
        · intro j hj
          exact absurd hj (Nat.not_lt_zero j)
      · rintro ⟨i, hi, hmin⟩
        cases i with
        | zero =>
          rw [List.drop_zero, hM] at hi
          exact hi
        | succ i2 =>
          have h0 := hmin 0 (Nat.succ_pos i2)
          rw [List.drop_zero, hM] at h0
          exact absurd h0 (by simp)
    | none =>
      rw [ih]
      constructor
      · rintro ⟨i, hi, hmin⟩
        refine ⟨i + 1, hi, ?_⟩
        intro j hj
        cases j with
        | zero =>
          rw [List.drop_zero]
          exact hM
        | succ j2 => exact hmin j2 (by omega)
      · rintro ⟨i, hi, hmin⟩
        cases i with
        | zero =>
          rw [List.drop_zero, hM] at hi
          exact absurd hi (by simp)
        | succ i2 =>
          refine ⟨i2, hi, ?_⟩
          intro j hj
          exact hmin (j + 1) (by omega)

theorem reSearch_eq_none_iff (cs : List Char) :
    reSearch cs = none ↔ ∀ i, matchAt (cs.drop i) = none := by
  induction cs with
  | nil =>
    constructor
    · intro _ i
      rw [List.drop_nil]
      exact matchAt_nil
    · intro _
      rfl
  | cons c cl ih =>
    simp only [reSearch]
    cases hM : matchAt (c :: cl) with
    | some s2 =>
      constructor
      · intro h; exact absurd h (by simp)
      · intro h
        have h0 := h 0
        rw [List.drop_zero, hM] at h0
        exact absurd h0 (by simp)
    | none =>
      rw [ih]
      constructor
      · intro h i
        cases i with
        | zero => rw [List.drop_zero]; exact hM
        | succ i2 => exact h i2
      · intro h i
        exact h (i + 1)

/-- Claim C6: (a) the Key Extractor returns `some s` exactly when the link
contains the digits-dot-digits pattern after the known path fragment, with
`s` the captured group of the first (least-position) such occurrence;
(b) it returns `NotFound` exactly when no position of the link matches;
(c) an entry whose link yields `NotFound` is skipped by the harvesting
loop, which continues with the remaining entries instead of aborting. -/
theorem c6_extractor_first_match :
    (∀ (link : String) (s : String),
      extractArxivId link = some s ↔
        ∃ i, MatchedGroup (link.toList.drop i) s ∧
          ∀ j, j < i → ∀ s', ¬ MatchedGroup (link.toList.drop j) s') ∧
    (∀ link : String,
      extractArxivId link = none ↔
        ∀ i s, ¬ MatchedGroup (link.toList.drop i) s) ∧
    (∀ (w : World) (e : Entry) (rest : List Entry) (st : HarvestState)
        (a : Anchor) (link t ab : String),
      e.anchor = some a → a.href = some link →
      (w.page (HF_BASE_URL ++ link)).status = 200 →
      (w.page (HF_BASE_URL ++ link)).titleEl = some t →
      (w.page (HF_BASE_URL ++ link)).abstractEl = some ab →
      extractArxivId link = none →
      harvestLoop w (e :: rest) st =
        harvestLoop w rest
          ⟨st.papers, st.seen, st.fetched ++ [HF_BASE_URL ++ link]⟩) := by
  refine ⟨?_, ?_, ?_⟩
  · intro link s
    rw [extractArxivId, reSearch_eq_some_iff]
    constructor
    · rintro ⟨i, hi, hmin⟩
      refine ⟨i, (matchAt_eq_some_iff _ _).mp hi, ?_⟩
      intro j hj s'
      exact (matchAt_eq_none_iff _).mp (hmin j hj) s'
    · rintro ⟨i, hi, hmin⟩
      exact ⟨i, (matchAt_eq_some_iff _ _).mpr hi,
        fun j hj => (matchAt_eq_none_iff _).mpr (hmin j hj)⟩
  · intro link
    rw [extractArxivId, reSearch_eq_none_iff]
    constructor
    · intro h i s
      exact (matchAt_eq_none_iff _).mp (h i) s
    · intro h i
      exact (matchAt_eq_none_iff _).mpr (h i)
  · intro w e rest st a link t ab ha hh hstat hT hAb hid
    have hstep : harvestEntry w e st =
        .ok ⟨st.papers, st.seen, st.fetched ++ [HF_BASE_URL ++ link]⟩ := by
      unfold harvestEntry
      simp only [ha, hh]
      simp [hstat, hT, hAb, hid]
    simp only [harvestLoop, hstep]

/-- A world with a single entry whose link contains no identifier
pattern; the detail page itself is healthy. -/
def wC6 : World :=
  { listing := fun _ => ⟨200, [⟨some ⟨some "/nope"⟩⟩]⟩
    page := fun _ => ⟨200, some "t", some "a"⟩
    dl := fun _ => true }

/-- Witness for C6: the extractor returns the captured group on a concrete
matching link, reports `NotFound` on one without the pattern, and the loop
skips the `NotFound` entry and continues. -/
theorem c6_witness :
    extractArxivId "/papers/12.3" = some "12.3" ∧
    (∀ i s, ¬ MatchedGroup ("/nope".toList.drop i) s) ∧
    harvestLoop wC6 [⟨some ⟨some "/nope"⟩⟩] initState =
      harvestLoop wC6 [] ⟨[], [], ["https://huggingface.co" ++ "/nope"]⟩ := by
  refine ⟨(c6_extractor_first_match.1 "/papers/12.3" "12.3").mpr
      ⟨0, ?_, ?_⟩,
    (c6_extractor_first_match.2.1 "/nope").mp rfl,
    c6_extractor_first_match.2.2 wC6 ⟨some ⟨some "/nope"⟩⟩ [] initState
      ⟨some "/nope"⟩ "/nope" "t" "a" rfl rfl rfl rfl rfl rfl⟩
  · refine ⟨['1', '2'], ['3'], [], by decide, by decide, by decide,
      by decide, by decide, ?_, by decide⟩
    intro c hc
    exact absurd hc (by simp)
  · intro j hj s'
    exact absurd hj (Nat.not_lt_zero j)

end PullHf
